import Mathlib

/-!
Verification development for the lock-free radix tree of src/radix.h.

The tree stores values identified by a unique integer key.  Internal nodes
hold an array of `1 <<< BITS` slots; a slot is empty, a leaf, or a pointer to
the next-level node.  We embed the data structure and its `get` and `insert`
algorithms as pure Lean functions (the source loop becomes fuel-indexed
recursion, with the fuel proved irrelevant on well-formed trees), the
low-bit word tagging of `RadixElement` as arithmetic on `Nat` words, and the
CAS write protocol as a step relation on trees.
-/

namespace Radix

/-- `static const int BITS = 4` from RadixTree. -/
def BITS : Nat := 4

/-- `static const int MASK = (1 << BITS) - 1` from RadixTree. -/
def MASK : Nat := (1 <<< BITS) - 1

/-- `static const size_t CHILD_PER_LEVEL = 1 << BITS` from RadixTree. -/
def CHILD_PER_LEVEL : Nat := 1 <<< BITS

/-- `static const uint32_t TOP_LEVEL = (KEY_BITS - 1) / BITS`; `keyBits` plays
the role of `KEY_BITS = 8 * sizeof(K)`, the bit width of the key type. -/
def TOP_LEVEL (keyBits : Nat) : Nat := (keyBits - 1) / BITS

/-- The slot index used by `RadixNode::get`:
`childs[(key >> (level * BITS)) & MASK]`. -/
def chunkIdx (key level : Nat) : Fin CHILD_PER_LEVEL :=
  ⟨(key >>> (level * BITS)) &&& MASK,
    Nat.lt_of_le_of_lt Nat.and_le_right (by decide)⟩

/-- A `RadixElement`: the discriminated union of an empty sentinel, a leaf
`T*`, or a `RadixNode*` whose node is an array of `CHILD_PER_LEVEL` slots. -/
inductive Element (V : Type) where
  | empty : Element V
  | leaf (v : V) : Element V
  | node (ch : Fin CHILD_PER_LEVEL → Element V) : Element V

/-- `RadixTree::get`, one slot per step: walk down while the slot holds a
node, indexing by the chunk of `key` at the current level and decrementing
the level; at a non-node slot return the leaf when its id matches `key`
(the empty sentinel behaves as a null leaf and yields `none`). -/
def getEl {V : Type} (getId : V → Nat) (key : Nat) :
    Element V → Nat → Option V
  | .empty, _ => none
  | .leaf w, _ => if getId w = key then some w else none
  | .node ch, level => getEl getId key (ch (chunkIdx key level)) (level - 1)

/-- The `RadixNode(uint32_t level, const K &key, RadixElement e)` constructor:
a value-initialized (all-empty) child array with `e` stored at
`get(level, key)`. -/
def mkRadixNode {V : Type} (level key : Nat) (e : Element V) :
    Fin CHILD_PER_LEVEL → Element V :=
  Function.update (fun _ => Element.empty) (chunkIdx key level) e

/-- `RadixTree::insert(const K &key, T *value)` run sequentially (every CAS
succeeds).  The element argument is the content of the slot the insertion
currently points at and `level` is the current value of the level counter;
`fuel` bounds the unbounded `while (true)` source loop and is proved not to
matter on well-formed trees.  An empty slot takes the new leaf (CAS
empty-to-leaf, return true); a leaf with the same id returns false leaving
the slot alone; a leaf with a different id is replaced by a freshly built
`RadixNode` holding that leaf (CAS leaf-to-node) after which the descent
resumes inside the new node exactly as the source re-enters its loop. -/
def insertEl {V : Type} (getId : V → Nat) (key : Nat) (v : V) :
    Nat → Nat → Element V → Bool × Element V
  | 0, _, e => (false, e)
  | _ + 1, _, .empty => (true, .leaf v)
  | fuel + 1, level, .leaf w =>
    if getId w = key then (false, .leaf w)
    else
      let ch := mkRadixNode level (getId w) (.leaf w)
      let i := chunkIdx key level
      let r := insertEl getId key v fuel (level - 1) (ch i)
      (r.1, .node (Function.update ch i r.2))
  | fuel + 1, level, .node ch =>
    let i := chunkIdx key level
    let r := insertEl getId key v fuel (level - 1) (ch i)
    (r.1, .node (Function.update ch i r.2))

/-- Number of compare-exchange attempts performed by a sequential run of
`RadixTree::insert` (in a sequential run every attempt succeeds, so this is
also the number of slot writes).  Same recursion structure as `insertEl`. -/
def insertCasCount {V : Type} (getId : V → Nat) (key : Nat) :
    Nat → Nat → Element V → Nat
  | 0, _, _ => 0
  | _ + 1, _, .empty => 1
  | fuel + 1, level, .leaf w =>
    if getId w = key then 0
    else
      1 + insertCasCount getId key fuel (level - 1)
            (mkRadixNode level (getId w) (Element.leaf w) (chunkIdx key level))
  | fuel + 1, level, .node ch =>
    insertCasCount getId key fuel (level - 1) (ch (chunkIdx key level))

/-- Number of node descents (`e.getNode()->get(level--, key)` loads)
performed by `RadixTree::get` for `key`. -/
def descentDepth {V : Type} (key : Nat) : Element V → Nat → Nat
  | .node ch, level => descentDepth key (ch (chunkIdx key level)) (level - 1) + 1
  | _, _ => 0

/-- The tree object: one root slot, `std::atomic<RadixElement> root`. -/
structure RTree (V : Type) where
  root : Element V

/-- `RadixTree() : root(RadixElement())`: the initial tree with an empty
root slot. -/
def emptyTree (V : Type) : RTree V := ⟨Element.empty⟩

/-- `RadixTree::get(const K &key)`: descend from the root starting at
`TOP_LEVEL`. -/
def RTree.get {V : Type} (getId : V → Nat) (keyBits : Nat)
    (t : RTree V) (key : Nat) : Option V :=
  getEl getId key t.root (TOP_LEVEL keyBits)

/-- The private `RadixTree::insert(const K &key, T *value)` at the tree
level.  Fuel `TOP_LEVEL + 2` covers the longest possible descent (root slot
plus one slot per level); the fuel is proved irrelevant on well-formed
trees. -/
def RTree.insertKey {V : Type} (getId : V → Nat) (keyBits : Nat)
    (t : RTree V) (key : Nat) (v : V) : Bool × RTree V :=
  let r := insertEl getId key v (TOP_LEVEL keyBits + 2) (TOP_LEVEL keyBits) t.root
  (r.1, ⟨r.2⟩)

/-- `RadixTree::insert(T *value) { return insert(value->getId(), value); }`. -/
def RTree.insert {V : Type} (getId : V → Nat) (keyBits : Nat)
    (t : RTree V) (v : V) : Bool × RTree V :=
  RTree.insertKey getId keyBits t (getId v) v

/-- The sequential CAS-attempt count of `RTree.insert`. -/
def RTree.insertCas {V : Type} (getId : V → Nat) (keyBits : Nat)
    (t : RTree V) (v : V) : Nat :=
  insertCasCount getId (getId v) (TOP_LEVEL keyBits + 2) (TOP_LEVEL keyBits) t.root

/-- Insert a list of values one after the other (the order of the list is
the order of the insertions). -/
def insertAll {V : Type} (getId : V → Nat) (keyBits : Nat)
    (l : List V) (t : RTree V) : RTree V :=
  l.foldl (fun t' v => (RTree.insert getId keyBits t' v).2) t

/-- Well-formedness of the element held by a slot.  `s` is the number of
key chunks still undetermined below this slot (the root slot has
`s = TOP_LEVEL + 1`; a node in a slot with parameter `s` is indexed at level
`s - 1` and its children have parameter `s - 1`), and `hi` is the value the
key bits above those chunks are forced to by the path from the root:
every leaf id fits in `keyBits` bits and agrees with the path on its high
bits, and nodes only sit at positive `s`. -/
def wfAt {V : Type} (getId : V → Nat) (keyBits : Nat) :
    Element V → Nat → Nat → Prop
  | .empty, _, _ => True
  | .leaf w, s, hi => getId w < 2 ^ keyBits ∧ getId w >>> (s * BITS) = hi
  | .node ch, s, hi =>
    0 < s ∧ ∀ i, wfAt getId keyBits (ch i) (s - 1) (hi * CHILD_PER_LEVEL + i.val)

/-- Well-formedness of a whole tree. -/
def wfT {V : Type} (getId : V → Nat) (keyBits : Nat) (t : RTree V) : Prop :=
  wfAt getId keyBits t.root (TOP_LEVEL keyBits + 1) 0

/-- Tree states reachable from the fresh tree by insertions of values whose
ids fit the key width (in the source every id has the key type, so it
always fits). -/
inductive Reachable {V : Type} (getId : V → Nat) (keyBits : Nat) : RTree V → Prop
  | empty : Reachable getId keyBits (emptyTree V)
  | insert (t : RTree V) (v : V) : Reachable getId keyBits t →
      getId v < 2 ^ keyBits →
      Reachable getId keyBits (RTree.insert getId keyBits t v).2

/-! ### The raw tagged-word encoding of `RadixElement`

`RadixElement` is one machine word (`uintptr_t raw`) overlapping a
`RadixNode *node` and a `T *leaf`; the low bit is the discriminant.  We model
the word as `Nat` and pointer values as their (even, since alignment of both
pointees is at least 2) numeric addresses. -/

/-- `static const uintptr_t DISCRIMINANT = 0x01`. -/
def DISCRIMINANT : Nat := 1

/-- `RadixElement() : raw(DISCRIMINANT)`: the empty sentinel word. -/
def rawEmpty : Nat := DISCRIMINANT

/-- `RadixElement(T *leafIn) : leaf(leafIn) { raw |= DISCRIMINANT; }`. -/
def rawOfLeaf (addr : Nat) : Nat := addr ||| DISCRIMINANT

/-- `RadixElement(RadixNode *nodeIn) : node(nodeIn)`: the address verbatim. -/
def rawOfNode (addr : Nat) : Nat := addr

/-- `getDiscriminent(): (raw & DISCRIMINANT) != 0`. -/
def rawDiscriminent (raw : Nat) : Bool := (raw &&& DISCRIMINANT) != 0

/-- `isNode(): !getDiscriminent()`. -/
def rawIsNode (raw : Nat) : Bool := !rawDiscriminent raw

/-- `isLeaf(): getDiscriminent()`. -/
def rawIsLeaf (raw : Nat) : Bool := rawDiscriminent raw

/-- `getNode(): assert(isNode()); return node;` — the assertion failure of a
tag-mismatched access is modelled as `none`. -/
def rawGetNode (raw : Nat) : Option Nat :=
  if rawIsNode raw then some raw else none

/-- `getLeaf(): assert(isLeaf()); return (T *)(raw & ~DISCRIMINANT);` — the
complement-and-mask clears the low bit, which on `Nat` is subtracting the
discriminant bit; a tag mismatch is `none`. -/
def rawGetLeaf (raw : Nat) : Option Nat :=
  if rawIsLeaf raw then some (raw - (raw &&& DISCRIMINANT)) else none

/-- `std::atomic::compare_exchange_strong` on a slot word: succeeds and
writes `new_` exactly when the current word equals `expected`; on failure
the word is left unchanged (and the observed value is reported back). -/
def casRaw (cur expected new_ : Nat) : Bool × Nat :=
  if cur = expected then (true, new_) else (false, cur)

/-! ### The slot write protocol as a step relation

The only writes `RadixTree::insert` ever performs on a published slot are
the two compare-exchanges: empty-to-leaf (line `eptr->compare_exchange_strong
(e, RadixElement(value))` guarded by `e.getLeaf() == nullptr`) and
leaf-to-node (publishing `RadixNode(level, leafKey, e)` built from the very
leaf being displaced).  `get` performs no writes.  A step of the tree is one
such write on one reachable slot. -/

/-- One CAS write on a single slot, as performed by `insert`. -/
inductive SlotWrite {V : Type} (getId : V → Nat) : Element V → Element V → Prop
  | cas_empty_leaf (v : V) : SlotWrite getId Element.empty (Element.leaf v)
  | cas_leaf_node (w : V) (level : Nat) :
      SlotWrite getId (Element.leaf w)
        (Element.node (mkRadixNode level (getId w) (Element.leaf w)))

/-- One step of the shared tree: some reachable slot undergoes one of the
two CAS writes. -/
inductive Step {V : Type} (getId : V → Nat) : Element V → Element V → Prop
  | here {e e' : Element V} : SlotWrite getId e e' → Step getId e e'
  | deeper (ch : Fin CHILD_PER_LEVEL → Element V) (i : Fin CHILD_PER_LEVEL)
      (e' : Element V) : Step getId (ch i) e' →
      Step getId (Element.node ch) (Element.node (Function.update ch i e'))

/-- The three states of the per-slot state machine: empty, leaf, node. -/
inductive SState where
  | E : SState
  | L : SState
  | N : SState
deriving DecidableEq

/-- The state of a slot content. -/
def stateOf {V : Type} : Element V → SState
  | .empty => SState.E
  | .leaf _ => SState.L
  | .node _ => SState.N

/-- Rank of a slot state in the transition order empty, leaf, node. -/
def stateRank : SState → Nat
  | SState.E => 0
  | SState.L => 1
  | SState.N => 2

/-- The content of the slot reached from an element by a path of child
indices (`none` when the path walks through a non-node). -/
def slotAt {V : Type} : Element V → List (Fin CHILD_PER_LEVEL) → Option (Element V)
  | e, [] => some e
  | .node ch, i :: p => slotAt (ch i) p
  | .empty, _ :: _ => none
  | .leaf _, _ :: _ => none

/-- Number of leaves reachable from an element. -/
def leafCount {V : Type} : Element V → Nat
  | .empty => 0
  | .leaf _ => 1
  | .node ch => ∑ i, leafCount (ch i)

/-! ### Concurrent insertions of one key into a fresh tree

N threads concurrently run `insert` with values sharing one id `k` on an
initially empty tree.  Then the root slot only ever holds empty or a leaf
with id `k`, so each thread performs at most two atomic actions on it: the
initial load, and (when the load saw empty) the empty-to-leaf CAS.  The local
comparison `key == leafKey` that follows a load or a failed CAS is folded
into the same transition since it touches no shared state. -/

/-- Control state of one inserting thread: before its first load of the
root slot, after having loaded the empty sentinel (about to CAS), or
returned with a result. -/
inductive TState where
  | start : TState
  | gotEmpty : TState
  | done (b : Bool) : TState
deriving DecidableEq

/-- Shared state: the root slot plus every thread control state. -/
structure SKState (V : Type) (n : Nat) where
  root : Element V
  ts : Fin n → TState

/-- Interleaved execution steps of `n` threads inserting values `v i`, all
with id `k`:
load of an empty root; load of a leaf root (same id, so the thread returns
false); winning empty-to-leaf CAS (the thread returns true); failed CAS
whose observed value is a leaf with the same id (the thread returns
false). -/
inductive SKStep {V : Type} {n : Nat} (getId : V → Nat) (k : Nat)
    (v : Fin n → V) : SKState V n → SKState V n → Prop
  | load_empty (s : SKState V n) (i : Fin n) :
      s.ts i = TState.start → s.root = Element.empty →
      SKStep getId k v s ⟨s.root, Function.update s.ts i TState.gotEmpty⟩
  | load_leaf (s : SKState V n) (i : Fin n) (w : V) :
      s.ts i = TState.start → s.root = Element.leaf w → getId w = k →
      SKStep getId k v s ⟨s.root, Function.update s.ts i (TState.done false)⟩
  | cas_win (s : SKState V n) (i : Fin n) :
      s.ts i = TState.gotEmpty → s.root = Element.empty →
      SKStep getId k v s
        ⟨Element.leaf (v i), Function.update s.ts i (TState.done true)⟩
  | cas_fail (s : SKState V n) (i : Fin n) (w : V) :
      s.ts i = TState.gotEmpty → s.root = Element.leaf w → getId w = k →
      SKStep getId k v s ⟨s.root, Function.update s.ts i (TState.done false)⟩

/-- The initial state of the same-key scenario: fresh tree, all threads
before their first load. -/
def skInit (V : Type) (n : Nat) : SKState V n :=
  ⟨Element.empty, fun _ => TState.start⟩

/-- A concrete stored value type for instantiating the development: a key
plus a payload, as a stand-in for the `T` of the template with
`getId` returning the key. -/
structure TVal where
  key : Nat
  payload : Nat
deriving DecidableEq

/-- The `getId` accessor of `TVal`. -/
def TVal.getId (t : TVal) : Nat := t.key

/-! ### Arithmetic of key chunks -/

theorem chunk_val_eq_mod (key level : Nat) :
    (chunkIdx key level).val = (key >>> (level * BITS)) % CHILD_PER_LEVEL := by
  have h : MASK = 2 ^ 4 - 1 := by decide
  have h2 : CHILD_PER_LEVEL = 2 ^ 4 := by decide
  simp only [chunkIdx, h, h2, Nat.and_pow_two_sub_one_eq_mod]

theorem shift_split (k s : Nat) :
    k >>> (s * BITS) =
      (k >>> ((s + 1) * BITS)) * CHILD_PER_LEVEL + (chunkIdx k s).val := by
  have hsb : (s + 1) * BITS = s * BITS + BITS := by ring
  have hpow : (2 : Nat) ^ BITS = 16 := by decide
  have hq : k >>> ((s + 1) * BITS) = (k >>> (s * BITS)) >>> BITS := by
    rw [hsb, Nat.shiftRight_add]
  have hdiv : (k >>> (s * BITS)) >>> BITS = (k >>> (s * BITS)) / 16 := by
    rw [Nat.shiftRight_eq_div_pow, hpow]
  have hmod : (chunkIdx k s).val = k >>> (s * BITS) % 16 := chunk_val_eq_mod k s
  have hdm := Nat.div_add_mod (k >>> (s * BITS)) 16
  show k >>> (s * BITS) = (k >>> ((s + 1) * BITS)) * 16 + (chunkIdx k s).val
  rw [hq, hdiv]
  omega

theorem keys_determine (s : Nat) :
    ∀ k1 k2 : Nat, k1 >>> (s * BITS) = k2 >>> (s * BITS) →
      (∀ l, l < s → chunkIdx k1 l = chunkIdx k2 l) → k1 = k2 := by
  induction s with
  | zero =>
    intro k1 k2 h _
    simpa using h
  | succ s ih =>
    intro k1 k2 h hc
    apply ih k1 k2
    · have h1 : k1 >>> (s * BITS) =
          (k1 >>> ((s + 1) * BITS)) * 16 + (chunkIdx k1 s).val := shift_split k1 s
      have h2 : k2 >>> (s * BITS) =
          (k2 >>> ((s + 1) * BITS)) * 16 + (chunkIdx k2 s).val := shift_split k2 s
      have hcs : (chunkIdx k1 s).val = (chunkIdx k2 s).val := by
        rw [hc s (Nat.lt_succ_self s)]
      omega
    · intro l hl
      exact hc l (Nat.lt_succ_of_lt hl)

theorem keys_differ {k1 k2 : Nat} (s : Nat) (hne : k1 ≠ k2)
    (h : k1 >>> (s * BITS) = k2 >>> (s * BITS)) :
    ∃ l, l < s ∧ chunkIdx k1 l ≠ chunkIdx k2 l := by
  by_contra hcon
  push_neg at hcon
  exact hne (keys_determine s k1 k2 h hcon)

theorem key_top_shift {keyBits key : Nat} (hk : key < 2 ^ keyBits) :
    key >>> ((TOP_LEVEL keyBits + 1) * BITS) = 0 := by
  rw [Nat.shiftRight_eq_div_pow]
  apply Nat.div_eq_of_lt
  apply Nat.lt_of_lt_of_le hk
  apply Nat.pow_le_pow_right (by omega)
  have hb : BITS = 4 := by decide
  unfold TOP_LEVEL
  simp only [hb]
  omega

/-- A `getEl` hit always has the queried key as its id. -/
theorem getEl_id {V : Type} (getId : V → Nat) (key : Nat) :
    ∀ (e : Element V) (level : Nat) (w : V),
      getEl getId key e level = some w → getId w = key := by
  intro e
  induction e with
  | empty => intro level w h; simp [getEl] at h
  | leaf u =>
    intro level w h
    simp only [getEl] at h
    by_cases hu : getId u = key
    · simp [hu] at h; subst h; exact hu
    · simp [hu] at h
  | node ch ih =>
    intro level w h
    exact ih (chunkIdx key level) (level - 1) w h

/-! ### The sequential insert specification

One induction establishes, for a well-formed slot content: the fuel is
irrelevant from `level + 2` upwards (the source loop needs no bound); if the
key is already present the insertion returns false and leaves the tree
unchanged; if it is absent the insertion returns true, the key then maps to
the new value, and well-formedness is preserved; and every other key reads
exactly as before. -/

theorem insertEl_spec {V : Type} (getId : V → Nat) (keyBits : Nat)
    (key : Nat) (v : V) (hkey : key < 2 ^ keyBits) (hv : getId v = key) :
    ∀ (level : Nat) (e : Element V) (hi fuel : Nat),
      wfAt getId keyBits e (level + 1) hi →
      key >>> ((level + 1) * BITS) = hi →
      level + 2 ≤ fuel →
      (insertEl getId key v fuel level e =
         insertEl getId key v (level + 2) level e) ∧
      (∀ w, getEl getId key e level = some w →
         insertEl getId key v fuel level e = (false, e)) ∧
      (getEl getId key e level = none →
         (insertEl getId key v fuel level e).1 = true ∧
         getEl getId key (insertEl getId key v fuel level e).2 level = some v ∧
         wfAt getId keyBits (insertEl getId key v fuel level e).2 (level + 1) hi) ∧
      (∀ k', k' ≠ key →
         getEl getId k' (insertEl getId key v fuel level e).2 level =
         getEl getId k' e level) := by
  intro level
  induction level with
  | zero =>
    intro e hi fuel hwf hsh hfuel
    obtain ⟨f, rfl⟩ : ∃ f, fuel = f + 1 := ⟨fuel - 1, by omega⟩
    have hvlt : getId v < 2 ^ keyBits := by rw [hv]; exact hkey
    cases e with
    | empty =>
      refine ⟨rfl, ?_, ?_, ?_⟩
      · intro w h; simp [getEl] at h
      · intro _
        refine ⟨rfl, by simp [getEl, insertEl, hv], ?_⟩
        simp only [insertEl, wfAt]
        exact ⟨hvlt, by rw [hv]; exact hsh⟩
      · intro k' hk'
        have hvk : getId v ≠ k' := by rw [hv]; exact fun h => hk' h.symm
        simp [getEl, insertEl, hvk]
    | leaf w =>
      by_cases hw : getId w = key
      · refine ⟨by simp [insertEl, hw], ?_, ?_, ?_⟩
        · intro w' _; simp [insertEl, hw]
        · intro h; simp [getEl, hw] at h
        · intro k' _; simp [insertEl, hw]
      · -- split the leaf at level 0; the two keys must differ in chunk 0
        have hwlt : getId w < 2 ^ keyBits := hwf.1
        have hwhi : getId w >>> (1 * BITS) = hi := hwf.2
        have hsh1 : key >>> (1 * BITS) = hi := hsh
        obtain ⟨l, hl, hldiff⟩ :=
          keys_differ 1 (fun h => hw h) (by rw [hwhi, hsh1])
        have hl0 : l = 0 := by omega
        subst hl0
        have hii : chunkIdx key 0 ≠ chunkIdx (getId w) 0 := fun h => hldiff h.symm
        have hch : mkRadixNode 0 (getId w) (Element.leaf w) (chunkIdx key 0) =
            Element.empty := by
          simp only [mkRadixNode]
          rw [Function.update_noteq hii]
        obtain ⟨f', rfl⟩ : ∃ f', f = f' + 1 := ⟨f - 1, by omega⟩
        have hres : insertEl getId key v (f' + 1 + 1) 0 (Element.leaf w) =
            (true, Element.node (Function.update
              (mkRadixNode 0 (getId w) (Element.leaf w)) (chunkIdx key 0)
              (Element.leaf v))) := by
          simp only [insertEl, if_neg hw, Nat.zero_sub, hch]
        have hres2 : insertEl getId key v (0 + 2) 0 (Element.leaf w) =
            (true, Element.node (Function.update
              (mkRadixNode 0 (getId w) (Element.leaf w)) (chunkIdx key 0)
              (Element.leaf v))) := by
          simp only [insertEl, if_neg hw, Nat.zero_sub, hch]
        have hkey0 : key = hi * CHILD_PER_LEVEL + (chunkIdx key 0).val := by
          have h := shift_split key 0
          rw [hsh1] at h
          simpa using h
        have hw0 : getId w =
            hi * CHILD_PER_LEVEL + (chunkIdx (getId w) 0).val := by
          have h := shift_split (getId w) 0
          rw [hwhi] at h
          simpa using h
        refine ⟨by rw [hres, hres2], ?_, ?_, ?_⟩
        · intro w' h; simp [getEl, hw] at h
        · intro _
          rw [hres]
          refine ⟨rfl, ?_, ?_⟩
          · simp [getEl, Function.update_same, hv]
          · simp only [wfAt, Nat.add_sub_cancel]
            refine ⟨Nat.zero_lt_one, ?_⟩
            intro j
            by_cases hji : j = chunkIdx key 0
            · subst hji
              rw [Function.update_same]
              simp only [wfAt]
              refine ⟨hvlt, ?_⟩
              simp only [Nat.zero_mul, Nat.shiftRight_zero]
              rw [hv]
              exact hkey0
            · rw [Function.update_noteq hji]
              simp only [mkRadixNode]
              by_cases hjw : j = chunkIdx (getId w) 0
              · subst hjw
                rw [Function.update_same]
                simp only [wfAt]
                refine ⟨hwlt, ?_⟩
                simp only [Nat.zero_mul, Nat.shiftRight_zero]
                exact hw0
              · rw [Function.update_noteq hjw]
                simp [wfAt]
        · intro k' hk'
          have hvk : getId v ≠ k' := by rw [hv]; exact fun h => hk' h.symm
          rw [hres]
          simp only [getEl, Nat.zero_sub]
          by_cases hc1 : chunkIdx k' 0 = chunkIdx key 0
          · rw [hc1, Function.update_same]
            have hwk' : getId w ≠ k' := by
              intro h
              rw [h] at hii
              exact hii hc1.symm
            simp [getEl, hvk, hwk']
          · rw [Function.update_noteq hc1]
            simp only [mkRadixNode]
            by_cases hc2 : chunkIdx k' 0 = chunkIdx (getId w) 0
            · rw [hc2, Function.update_same]
              simp [getEl]
            · rw [Function.update_noteq hc2]
              have hwk' : getId w ≠ k' := by
                intro h; rw [h] at hc2; exact hc2 rfl
              simp [getEl, hwk']
    | node ch =>
      have hch := hwf.2
      have hsh1 : key >>> (1 * BITS) = hi := hsh
      have hkey0 : key =
          hi * CHILD_PER_LEVEL + (chunkIdx key 0).val := by
        have h := shift_split key 0
        rw [hsh1] at h
        simpa using h
      have hwi : wfAt getId keyBits (ch (chunkIdx key 0)) 0
          (hi * CHILD_PER_LEVEL + (chunkIdx key 0).val) := by
        simpa using hch (chunkIdx key 0)
      obtain ⟨f', rfl⟩ : ∃ f', f = f' + 1 := ⟨f - 1, by omega⟩
      cases hchi : ch (chunkIdx key 0) with
      | empty =>
        have hres : insertEl getId key v (f' + 1 + 1) 0 (Element.node ch) =
            (true, Element.node (Function.update ch (chunkIdx key 0)
              (Element.leaf v))) := by
          simp only [insertEl, Nat.zero_sub, hchi]
        have hres2 : insertEl getId key v (0 + 2) 0 (Element.node ch) =
            (true, Element.node (Function.update ch (chunkIdx key 0)
              (Element.leaf v))) := by
          simp only [insertEl, Nat.zero_sub, hchi]
        have hget : getEl getId key (Element.node ch) 0 = none := by
          simp [getEl, hchi]
        refine ⟨by rw [hres, hres2], ?_, ?_, ?_⟩
        · intro w' h; rw [hget] at h; cases h
        · intro _
          rw [hres]
          refine ⟨rfl, ?_, ?_⟩
          · simp [getEl, Function.update_same, hv]
          · simp only [wfAt, Nat.add_sub_cancel]
            refine ⟨Nat.zero_lt_one, ?_⟩
            intro j
            by_cases hji : j = chunkIdx key 0
            · subst hji
              rw [Function.update_same]
              simp only [wfAt]
              refine ⟨hvlt, ?_⟩
              simp only [Nat.zero_mul, Nat.shiftRight_zero]
              rw [hv]
              exact hkey0
            · rw [Function.update_noteq hji]
              simpa using hch j
        · intro k' hk'
          have hvk : getId v ≠ k' := by rw [hv]; exact fun h => hk' h.symm
          rw [hres]
          simp only [getEl, Nat.zero_sub]
          by_cases hc1 : chunkIdx k' 0 = chunkIdx key 0
          · rw [hc1, Function.update_same, hchi]
            simp [getEl, hvk]
          · rw [Function.update_noteq hc1]
      | leaf u =>
        have hu : getId u = key := by
          have h1 : getId u >>> (0 * BITS) =
              hi * CHILD_PER_LEVEL + (chunkIdx key 0).val := by
            rw [hchi] at hwi
            exact hwi.2
          simp only [Nat.zero_mul, Nat.shiftRight_zero] at h1
          rw [hkey0]
          exact h1
        have hres : insertEl getId key v (f' + 1 + 1) 0 (Element.node ch) =
            (false, Element.node (Function.update ch (chunkIdx key 0)
              (Element.leaf u))) := by
          simp only [insertEl, Nat.zero_sub, hchi, if_pos hu]
        rw [← hchi, Function.update_eq_self] at hres
        have hres2 : insertEl getId key v (0 + 2) 0 (Element.node ch) =
            (false, Element.node (Function.update ch (chunkIdx key 0)
              (Element.leaf u))) := by
          simp only [insertEl, Nat.zero_sub, hchi, if_pos hu]
        rw [← hchi, Function.update_eq_self] at hres2
        have hget : getEl getId key (Element.node ch) 0 = some u := by
          simp [getEl, hchi, hu]
        refine ⟨by rw [hres, hres2], ?_, ?_, ?_⟩
        · intro w' _; exact hres
        · intro h; rw [hget] at h; cases h
        · intro k' _; rw [hres]
      | node ch2 =>
        exfalso
        rw [hchi] at hwi
        exact absurd hwi.1 (by omega)
  | succ l ih =>
    intro e hi fuel hwf hsh hfuel
    obtain ⟨f, rfl⟩ : ∃ f, fuel = f + 1 := ⟨fuel - 1, by omega⟩
    have hvlt : getId v < 2 ^ keyBits := by rw [hv]; exact hkey
    cases e with
    | empty =>
      refine ⟨rfl, ?_, ?_, ?_⟩
      · intro w h; simp [getEl] at h
      · intro _
        refine ⟨rfl, by simp [getEl, insertEl, hv], ?_⟩
        simp only [insertEl, wfAt]
        exact ⟨hvlt, by rw [hv]; exact hsh⟩
      · intro k' hk'
        have hvk : getId v ≠ k' := by rw [hv]; exact fun h => hk' h.symm
        simp [getEl, insertEl, hvk]
    | leaf w =>
      by_cases hw : getId w = key
      · refine ⟨by simp [insertEl, hw], ?_, ?_, ?_⟩
        · intro w' _; simp [insertEl, hw]
        · intro h; simp [getEl, hw] at h
        · intro k' _; simp [insertEl, hw]
      · have hwlt : getId w < 2 ^ keyBits := hwf.1
        have hwhi : getId w >>> ((l + 1 + 1) * BITS) = hi := hwf.2
        have hkeysh : key >>> ((l + 1) * BITS) =
            hi * CHILD_PER_LEVEL + (chunkIdx key (l + 1)).val := by
          have h := shift_split key (l + 1)
          rw [hsh] at h
          exact h
        have hwsh : getId w >>> ((l + 1) * BITS) =
            hi * CHILD_PER_LEVEL + (chunkIdx (getId w) (l + 1)).val := by
          have h := shift_split (getId w) (l + 1)
          rw [hwhi] at h
          exact h
        by_cases hii : chunkIdx key (l + 1) = chunkIdx (getId w) (l + 1)
        · -- same chunk: the displaced leaf fills the slot the key descends to
          have hchi : mkRadixNode (l + 1) (getId w) (Element.leaf w)
              (chunkIdx key (l + 1)) = Element.leaf w := by
            simp only [mkRadixNode]
            rw [hii, Function.update_same]
          have hwfl : wfAt getId keyBits (Element.leaf w) (l + 1)
              (hi * CHILD_PER_LEVEL + (chunkIdx key (l + 1)).val) := by
            simp only [wfAt]
            exact ⟨hwlt, by rw [hwsh, hii]⟩
          have hgl : getEl getId key (Element.leaf w) l = none := by
            simp [getEl, hw]
          obtain ⟨ihfuel, _, ihnone, ihframe⟩ :=
            ih (Element.leaf w)
              (hi * CHILD_PER_LEVEL + (chunkIdx key (l + 1)).val) f hwfl hkeysh
              (by omega)
          obtain ⟨ihb, ihget, ihwf⟩ := ihnone hgl
          have hres : insertEl getId key v (f + 1) (l + 1) (Element.leaf w) =
              ((insertEl getId key v f l (Element.leaf w)).1,
                Element.node (Function.update
                  (mkRadixNode (l + 1) (getId w) (Element.leaf w))
                  (chunkIdx key (l + 1))
                  (insertEl getId key v f l (Element.leaf w)).2)) := by
            simp only [insertEl, if_neg hw, Nat.add_sub_cancel, hchi]
          have hres2 : insertEl getId key v (l + 1 + 2) (l + 1)
              (Element.leaf w) =
              ((insertEl getId key v (l + 2) l (Element.leaf w)).1,
                Element.node (Function.update
                  (mkRadixNode (l + 1) (getId w) (Element.leaf w))
                  (chunkIdx key (l + 1))
                  (insertEl getId key v (l + 2) l (Element.leaf w)).2)) := by
            simp only [insertEl, if_neg hw, Nat.add_sub_cancel, hchi]
          refine ⟨by rw [hres, hres2, ihfuel], ?_, ?_, ?_⟩
          · intro w' h; simp [getEl, hw] at h
          · intro _
            rw [hres]
            refine ⟨ihb, ?_, ?_⟩
            · simp only [getEl, Nat.add_sub_cancel]
              rw [Function.update_same]
              exact ihget
            · simp only [wfAt, Nat.add_sub_cancel]
              refine ⟨by omega, ?_⟩
              intro j
              by_cases hji : j = chunkIdx key (l + 1)
              · subst hji
                rw [Function.update_same]
                exact ihwf
              · rw [Function.update_noteq hji]
                simp only [mkRadixNode]
                rw [Function.update_noteq (by rw [← hii]; exact hji)]
                simp [wfAt]
          · intro k' hk'
            rw [hres]
            simp only [getEl, Nat.add_sub_cancel]
            by_cases hc1 : chunkIdx k' (l + 1) = chunkIdx key (l + 1)
            · rw [hc1, Function.update_same]
              rw [ihframe k' hk']
              simp [getEl]
            · rw [Function.update_noteq hc1]
              simp only [mkRadixNode]
              rw [Function.update_noteq (by rw [← hii]; exact hc1)]
              have hwk' : getId w ≠ k' := by
                intro h
                apply hc1
                rw [← h, ← hii]
              simp [getEl, hwk']
        · -- different chunk: the key lands in an empty slot of the new node
          have hchi : mkRadixNode (l + 1) (getId w) (Element.leaf w)
              (chunkIdx key (l + 1)) = Element.empty := by
            simp only [mkRadixNode]
            rw [Function.update_noteq hii]
          obtain ⟨f', rfl⟩ : ∃ f', f = f' + 1 := ⟨f - 1, by omega⟩
          have hres : insertEl getId key v (f' + 1 + 1) (l + 1)
              (Element.leaf w) =
              (true, Element.node (Function.update
                (mkRadixNode (l + 1) (getId w) (Element.leaf w))
                (chunkIdx key (l + 1)) (Element.leaf v))) := by
            simp only [insertEl, if_neg hw, Nat.add_sub_cancel, hchi]
          have hres2 : insertEl getId key v (l + 1 + 2) (l + 1)
              (Element.leaf w) =
              (true, Element.node (Function.update
                (mkRadixNode (l + 1) (getId w) (Element.leaf w))
                (chunkIdx key (l + 1)) (Element.leaf v))) := by
            simp only [insertEl, if_neg hw, Nat.add_sub_cancel, hchi]
          refine ⟨by rw [hres, hres2], ?_, ?_, ?_⟩
          · intro w' h; simp [getEl, hw] at h
          · intro _
            rw [hres]
            refine ⟨rfl, ?_, ?_⟩
            · simp only [getEl, Nat.add_sub_cancel]
              rw [Function.update_same]
              simp [getEl, hv]
            · simp only [wfAt, Nat.add_sub_cancel]
              refine ⟨by omega, ?_⟩
              intro j
              by_cases hji : j = chunkIdx key (l + 1)
              · subst hji
                rw [Function.update_same]
                simp only [wfAt]
                refine ⟨hvlt, ?_⟩
                rw [hv]
                exact hkeysh
              · rw [Function.update_noteq hji]
                simp only [mkRadixNode]
                by_cases hjw : j = chunkIdx (getId w) (l + 1)
                · subst hjw
                  rw [Function.update_same]
                  simp only [wfAt]
                  exact ⟨hwlt, hwsh⟩
                · rw [Function.update_noteq hjw]
                  simp [wfAt]
          · intro k' hk'
            have hvk : getId v ≠ k' := by rw [hv]; exact fun h => hk' h.symm
            rw [hres]
            simp only [getEl, Nat.add_sub_cancel]
            by_cases hc1 : chunkIdx k' (l + 1) = chunkIdx key (l + 1)
            · rw [hc1, Function.update_same]
              have hwk' : getId w ≠ k' := by
                intro h
                apply hii
                rw [h, hc1]
              simp [getEl, hvk, hwk']
            · rw [Function.update_noteq hc1]
              simp only [mkRadixNode]
              by_cases hc2 : chunkIdx k' (l + 1) = chunkIdx (getId w) (l + 1)
              · rw [hc2, Function.update_same]
                simp [getEl]
              · rw [Function.update_noteq hc2]
                have hwk' : getId w ≠ k' := by
                  intro h; apply hc2; rw [h]
                simp [getEl, hwk']
    | node ch =>
      have hch := hwf.2
      have hkeysh : key >>> ((l + 1) * BITS) =
          hi * CHILD_PER_LEVEL + (chunkIdx key (l + 1)).val := by
        have h := shift_split key (l + 1)
        rw [hsh] at h
        exact h
      have hwi : wfAt getId keyBits (ch (chunkIdx key (l + 1))) (l + 1)
          (hi * CHILD_PER_LEVEL + (chunkIdx key (l + 1)).val) := by
        simpa using hch (chunkIdx key (l + 1))
      obtain ⟨ihfuel, ihsome, ihnone, ihframe⟩ :=
        ih (ch (chunkIdx key (l + 1)))
          (hi * CHILD_PER_LEVEL + (chunkIdx key (l + 1)).val) f hwi hkeysh
          (by omega)
      have hres : insertEl getId key v (f + 1) (l + 1) (Element.node ch) =
          ((insertEl getId key v f l (ch (chunkIdx key (l + 1)))).1,
            Element.node (Function.update ch (chunkIdx key (l + 1))
              (insertEl getId key v f l (ch (chunkIdx key (l + 1)))).2)) := by
        simp only [insertEl, Nat.add_sub_cancel]
      have hres2 : insertEl getId key v (l + 1 + 2) (l + 1) (Element.node ch) =
          ((insertEl getId key v (l + 2) l (ch (chunkIdx key (l + 1)))).1,
            Element.node (Function.update ch (chunkIdx key (l + 1))
              (insertEl getId key v (l + 2) l
                (ch (chunkIdx key (l + 1)))).2)) := by
        simp only [insertEl, Nat.add_sub_cancel]
      have hgete : ∀ k'', getEl getId k'' (Element.node ch) (l + 1) =
          getEl getId k'' (ch (chunkIdx k'' (l + 1))) l := by
        intro k''
        simp only [getEl, Nat.add_sub_cancel]
      refine ⟨by rw [hres, hres2, ihfuel], ?_, ?_, ?_⟩
      · intro w h
        rw [hgete key] at h
        have hr := ihsome w h
        rw [hres]
        simp [hr, Function.update_eq_self]
      · intro h
        rw [hgete key] at h
        obtain ⟨ihb, ihget, ihwf⟩ := ihnone h
        rw [hres]
        refine ⟨ihb, ?_, ?_⟩
        · simp only [getEl, Nat.add_sub_cancel]
          rw [Function.update_same]
          exact ihget
        · simp only [wfAt, Nat.add_sub_cancel]
          refine ⟨by omega, ?_⟩
          intro j
          by_cases hji : j = chunkIdx key (l + 1)
          · subst hji
            rw [Function.update_same]
            exact ihwf
          · rw [Function.update_noteq hji]
            simpa using hch j
      · intro k' hk'
        rw [hres]
        simp only [getEl, Nat.add_sub_cancel]
        by_cases hc1 : chunkIdx k' (l + 1) = chunkIdx key (l + 1)
        · rw [hc1, Function.update_same]
          exact ihframe k' hk'
        · rw [Function.update_noteq hc1]

/-- The sequential insert contract at the tree level, for a well-formed
tree and a value whose id fits the key width: a hit returns false and leaves
the tree untouched; a miss returns true, makes the id readable, and keeps
the tree well formed; all other keys read as before. -/
theorem insertT_spec {V : Type} (getId : V → Nat) (keyBits : Nat)
    (t : RTree V) (v : V) (hwf : wfT getId keyBits t)
    (hv : getId v < 2 ^ keyBits) :
    (∀ w, RTree.get getId keyBits t (getId v) = some w →
       RTree.insert getId keyBits t v = (false, t)) ∧
    (RTree.get getId keyBits t (getId v) = none →
       (RTree.insert getId keyBits t v).1 = true ∧
       RTree.get getId keyBits (RTree.insert getId keyBits t v).2 (getId v) =
         some v ∧
       wfT getId keyBits (RTree.insert getId keyBits t v).2) ∧
    (∀ k', k' ≠ getId v →
       RTree.get getId keyBits (RTree.insert getId keyBits t v).2 k' =
       RTree.get getId keyBits t k') := by
  have hsh : getId v >>> ((TOP_LEVEL keyBits + 1) * BITS) = 0 := key_top_shift hv
  obtain ⟨_, hsome, hnone, hframe⟩ :=
    insertEl_spec getId keyBits (getId v) v hv rfl (TOP_LEVEL keyBits) t.root 0
      (TOP_LEVEL keyBits + 2) hwf hsh (by omega)
  refine ⟨?_, ?_, ?_⟩
  · intro w h
    have hr := hsome w h
    show (_, (⟨(insertEl getId (getId v) v (TOP_LEVEL keyBits + 2)
      (TOP_LEVEL keyBits) t.root).2⟩ : RTree V)) = (false, t)
    rw [hr]
  · intro h
    obtain ⟨hb, hg, hwf2⟩ := hnone h
    exact ⟨hb, hg, hwf2⟩
  · intro k' hk'
    exact hframe k' hk'

/-- Every tree reachable by insertions is well formed. -/
theorem wfT_of_reachable {V : Type} (getId : V → Nat) (keyBits : Nat)
    (t : RTree V) (h : Reachable getId keyBits t) : wfT getId keyBits t := by
  induction h with
  | empty => trivial
  | insert t' v _ hvlt ih =>
    obtain ⟨hsome, hnone, _⟩ := insertT_spec getId keyBits t' v ih hvlt
    cases hg : RTree.get getId keyBits t' (getId v) with
    | none => exact (hnone hg).2.2
    | some w =>
      have := hsome w hg
      rw [this]
      exact ih

/-- Inserting a list of fresh, pairwise-distinct ids into a well-formed
tree makes every listed value readable by its id, changes no other key, and
preserves well-formedness. -/
theorem insertAll_spec {V : Type} (getId : V → Nat) (keyBits : Nat) :
    ∀ (l : List V) (t : RTree V), wfT getId keyBits t →
      (∀ v ∈ l, getId v < 2 ^ keyBits) →
      (l.map getId).Nodup →
      (∀ v ∈ l, RTree.get getId keyBits t (getId v) = none) →
      (∀ v ∈ l, RTree.get getId keyBits (insertAll getId keyBits l t)
          (getId v) = some v) ∧
      (∀ k, k ∉ l.map getId →
         RTree.get getId keyBits (insertAll getId keyBits l t) k =
         RTree.get getId keyBits t k) ∧
      wfT getId keyBits (insertAll getId keyBits l t) := by
  intro l
  induction l with
  | nil =>
    intro t hwf _ _ _
    exact ⟨by simp, fun k _ => rfl, hwf⟩
  | cons v0 rest ih =>
    intro t hwf hlt hnd habs
    have hfold : insertAll getId keyBits (v0 :: rest) t =
        insertAll getId keyBits rest (RTree.insert getId keyBits t v0).2 := rfl
    have hv0lt : getId v0 < 2 ^ keyBits := hlt v0 (List.mem_cons_self v0 rest)
    obtain ⟨_, hnone, hframe⟩ := insertT_spec getId keyBits t v0 hwf hv0lt
    obtain ⟨_, hg1, hwf1⟩ := hnone (habs v0 (List.mem_cons_self v0 rest))
    have hnd' : (∀ x ∈ rest, ¬getId x = getId v0) ∧
        (rest.map getId).Nodup := by simpa using hnd
    have hnd0 : getId v0 ∉ rest.map getId := by
      intro h
      obtain ⟨x, hx, hxe⟩ := List.mem_map.mp h
      exact hnd'.1 x hx hxe
    have hndr : (rest.map getId).Nodup := hnd'.2
    have habs1 : ∀ v ∈ rest,
        RTree.get getId keyBits (RTree.insert getId keyBits t v0).2 (getId v) =
          none := by
      intro v hvmem
      have hne : getId v ≠ getId v0 := hnd'.1 v hvmem
      rw [hframe (getId v) hne]
      exact habs v (List.mem_cons_of_mem v0 hvmem)
    obtain ⟨hall, hframe2, hwf2⟩ :=
      ih (RTree.insert getId keyBits t v0).2 hwf1
        (fun v hvmem => hlt v (List.mem_cons_of_mem v0 hvmem)) hndr habs1
    refine ⟨?_, ?_, ?_⟩
    · intro v hvmem
      rcases List.mem_cons.mp hvmem with h0 | hr
      · subst h0
        rw [hfold, hframe2 (getId v) hnd0]
        exact hg1
      · rw [hfold]
        exact hall v hr
    · intro k hk
      have hk1 : k ∉ rest.map getId := fun h =>
        hk (by simpa using Or.inr h)
      have hk0 : k ≠ getId v0 := fun h =>
        hk (by simpa using Or.inl h)
      rw [hfold, hframe2 k hk1, hframe k hk0]
    · rw [hfold]
      exact hwf2

/-- Claim C2: for every finite set of values with pairwise-distinct ids
(given as a duplicate-free list, in an arbitrary insertion order), inserting
all of them into the initially empty tree yields a tree from which `get`
returns each value by its id, and returns none for every key that is not
one of the inserted ids; in particular every `get` on the empty tree itself
returns none. -/
theorem claim_C2 {V : Type} (getId : V → Nat) (keyBits : Nat)
    (l : List V) (hlt : ∀ v ∈ l, getId v < 2 ^ keyBits)
    (hnd : (l.map getId).Nodup) :
    (∀ v ∈ l, RTree.get getId keyBits
        (insertAll getId keyBits l (emptyTree V)) (getId v) = some v) ∧
    (∀ k, k ∉ l.map getId →
       RTree.get getId keyBits (insertAll getId keyBits l (emptyTree V)) k =
         none) ∧
    (∀ k, RTree.get getId keyBits (emptyTree V) k = none) := by
  obtain ⟨hall, hframe, _⟩ :=
    insertAll_spec getId keyBits l (emptyTree V) trivial hlt hnd
      (fun _ _ => rfl)
  exact ⟨hall, fun k hk => hframe k hk, fun _ => rfl⟩

/-- Claim C3: `insert(v)` returns false exactly when the tree already holds
a value with the same id, and in that case the call leaves the tree
unchanged (this outcome is a result, not a fault). -/
theorem claim_C3 {V : Type} (getId : V → Nat) (keyBits : Nat)
    (t : RTree V) (v : V) (ht : Reachable getId keyBits t)
    (hv : getId v < 2 ^ keyBits) :
    ((RTree.insert getId keyBits t v).1 = false ↔
       ∃ w, RTree.get getId keyBits t (getId v) = some w ∧
         getId w = getId v) ∧
    ((RTree.insert getId keyBits t v).1 = false →
       (RTree.insert getId keyBits t v).2 = t) := by
  have hwf := wfT_of_reachable getId keyBits t ht
  obtain ⟨hsome, hnone, _⟩ := insertT_spec getId keyBits t v hwf hv
  cases hg : RTree.get getId keyBits t (getId v) with
  | some w =>
    have hr := hsome w hg
    refine ⟨⟨fun _ => ⟨w, rfl, ?_⟩, fun _ => by rw [hr]⟩, fun _ => by rw [hr]⟩
    exact getEl_id getId (getId v) t.root (TOP_LEVEL keyBits) w hg
  | none =>
    have hb := (hnone hg).1
    refine ⟨⟨fun hfalse => ?_, fun h => ?_⟩, fun hfalse => ?_⟩
    · rw [hb] at hfalse
      cases hfalse
    · obtain ⟨w, hw, _⟩ := h
      cases hw
    · rw [hb] at hfalse
      cases hfalse

/-- Claim C4: on every tree state reachable by insertions, if `insert(v)`
returns true then a subsequent `get(v.getId())` returns exactly the
inserted value. -/
theorem claim_C4 {V : Type} (getId : V → Nat) (keyBits : Nat)
    (t : RTree V) (v : V) (ht : Reachable getId keyBits t)
    (hv : getId v < 2 ^ keyBits)
    (hins : (RTree.insert getId keyBits t v).1 = true) :
    RTree.get getId keyBits (RTree.insert getId keyBits t v).2 (getId v) =
      some v := by
  have hwf := wfT_of_reachable getId keyBits t ht
  obtain ⟨hsome, hnone, _⟩ := insertT_spec getId keyBits t v hwf hv
  cases hg : RTree.get getId keyBits t (getId v) with
  | some w =>
    have hr := hsome w hg
    rw [hr] at hins
    cases hins
  | none =>
    exact (hnone hg).2.1

/-- Claim C1: when the descent of `insert` reaches a leaf whose id differs
from the inserted key, the freshly built `RadixNode` carries the single
existing leaf at the chunk of that leaf id for the level one below the node
whose slot is split (the current, already decremented, level counter), all
other slots empty; after the CAS publishes it the insertion continues
exactly as if the slot had held that node all along; a failed CAS publishes
nothing, leaving the slot with its observed content. -/
theorem claim_C1 {V : Type} (getId : V → Nat) (key : Nat) (v w : V)
    (level fuel : Nat) (hw : getId w ≠ key) :
    (mkRadixNode level (getId w) (Element.leaf w)
        (chunkIdx (getId w) level) = Element.leaf w) ∧
    (∀ j, j ≠ chunkIdx (getId w) level →
       mkRadixNode level (getId w) (Element.leaf w) j = Element.empty) ∧
    (insertEl getId key v (fuel + 1) level (Element.leaf w) =
       insertEl getId key v (fuel + 1) level
         (Element.node (mkRadixNode level (getId w) (Element.leaf w)))) ∧
    (∀ cur expected new_, cur ≠ expected →
       casRaw cur expected new_ = (false, cur)) := by
  refine ⟨?_, ?_, ?_, ?_⟩
  · simp only [mkRadixNode]
    rw [Function.update_same]
  · intro j hj
    simp only [mkRadixNode]
    rw [Function.update_noteq hj]
  · simp only [insertEl, if_neg hw]
  · intro cur expected new_ hne
    simp [casRaw, hne]

theorem claim_C1_witness :
    TVal.getId ⟨1, 0⟩ ≠ 2 ∧
    ((mkRadixNode 0 (TVal.getId ⟨1, 0⟩) (Element.leaf (⟨1, 0⟩ : TVal))
        (chunkIdx (TVal.getId ⟨1, 0⟩) 0) = Element.leaf ⟨1, 0⟩) ∧
     (∀ j, j ≠ chunkIdx (TVal.getId ⟨1, 0⟩) 0 →
        mkRadixNode 0 (TVal.getId ⟨1, 0⟩) (Element.leaf (⟨1, 0⟩ : TVal)) j =
          Element.empty) ∧
     (insertEl TVal.getId 2 ⟨2, 0⟩ (1 + 1) 0 (Element.leaf ⟨1, 0⟩) =
        insertEl TVal.getId 2 ⟨2, 0⟩ (1 + 1) 0
          (Element.node (mkRadixNode 0 (TVal.getId ⟨1, 0⟩)
            (Element.leaf ⟨1, 0⟩)))) ∧
     (∀ cur expected new_, cur ≠ expected →
        casRaw cur expected new_ = (false, cur))) :=
  ⟨by decide, claim_C1 TVal.getId 2 ⟨2, 0⟩ ⟨1, 0⟩ 0 1 (by decide)⟩

/-- The bitwise-or with the discriminant bit on an even word is plain
addition of one. -/
theorem lor_one_of_even (a : Nat) (ha : a % 2 = 0) : a ||| 1 = a + 1 := by
  apply Nat.eq_of_testBit_eq
  intro i
  cases i with
  | zero =>
    have h1 : (a + 1) % 2 = 1 := by omega
    simp [Nat.testBit_or, Nat.testBit_zero, h1]
  | succ j =>
    rw [Nat.testBit_or]
    simp only [Nat.testBit_add_one]
    have h1 : (1 : Nat) / 2 = 0 := by norm_num
    have h2 : (a + 1) / 2 = a / 2 := by omega
    rw [h1, h2]
    simp

/-- Claim C5: the slot word encoding.  With `a` an even word (both pointee
types have alignment at least 2): the empty sentinel is the word 1 (low bit
set, upper bits zero); the leaf constructor tags the address with the low
bit, giving `a + 1` (low bit set, upper bits the address); the node
constructor uses the address verbatim (low bit clear); the inspectors and
accessors decode exactly these cases, a leaf access clearing the low bit, a
node access returning the word verbatim, and any tag-mismatched access
tripping the assertion (modelled as `none`) rather than returning a
value. -/
theorem claim_C5 (a r : Nat) (ha : a % 2 = 0) :
    rawEmpty = 1 ∧
    rawOfNode a = a ∧
    rawOfLeaf a = a + 1 ∧
    rawIsNode (rawOfNode a) = true ∧
    rawGetNode (rawOfNode a) = some a ∧
    rawIsLeaf (rawOfLeaf a) = true ∧
    rawGetLeaf (rawOfLeaf a) = some a ∧
    rawIsLeaf rawEmpty = true ∧
    rawGetLeaf rawEmpty = some 0 ∧
    rawGetNode (rawOfLeaf a) = none ∧
    rawGetLeaf (rawOfNode a) = none ∧
    (r % 2 = 1 → r / 2 = 0 → r = rawEmpty) ∧
    (r % 2 = 1 → r / 2 ≠ 0 →
       rawIsLeaf r = true ∧ rawGetLeaf r = some (r - 1) ∧
       r - 1 = 2 * (r / 2) ∧ r - 1 ≠ 0) ∧
    (r % 2 = 0 → rawIsNode r = true ∧ rawGetNode r = some r) := by
  have hol : rawOfLeaf a = a + 1 := lor_one_of_even a ha
  have hmod : ∀ x : Nat, x &&& 1 = x % 2 := Nat.and_one_is_mod
  have hodd : (a + 1) % 2 = 1 := by omega
  refine ⟨rfl, rfl, hol, ?_, ?_, ?_, ?_, by decide, by decide, ?_, ?_, ?_, ?_, ?_⟩
  · simp [rawIsNode, rawOfNode, rawDiscriminent, DISCRIMINANT, hmod, ha]
  · simp [rawGetNode, rawIsNode, rawOfNode, rawDiscriminent, DISCRIMINANT,
      hmod, ha]
  · rw [hol]
    simp [rawIsLeaf, rawDiscriminent, DISCRIMINANT, hmod, hodd]
  · rw [hol]
    simp [rawGetLeaf, rawIsLeaf, rawDiscriminent, DISCRIMINANT, hmod, hodd]
  · rw [hol]
    simp [rawGetNode, rawIsNode, rawDiscriminent, DISCRIMINANT, hmod, hodd]
  · simp [rawGetLeaf, rawIsLeaf, rawOfNode, rawDiscriminent, DISCRIMINANT,
      hmod, ha]
  · intro h1 h2
    show r = 1
    omega
  · intro h1 h2
    refine ⟨?_, ?_, by omega, by omega⟩
    · simp [rawIsLeaf, rawDiscriminent, DISCRIMINANT, hmod, h1]
    · simp [rawGetLeaf, rawIsLeaf, rawDiscriminent, DISCRIMINANT, hmod, h1]
  · intro h1
    constructor
    · simp [rawIsNode, rawDiscriminent, DISCRIMINANT, hmod, h1]
    · simp [rawGetNode, rawIsNode, rawDiscriminent, DISCRIMINANT, hmod, h1]

theorem claim_C5_witness :
    (4 : Nat) % 2 = 0 ∧
    (rawEmpty = 1 ∧
     rawOfNode 4 = 4 ∧
     rawOfLeaf 4 = 4 + 1 ∧
     rawIsNode (rawOfNode 4) = true ∧
     rawGetNode (rawOfNode 4) = some 4 ∧
     rawIsLeaf (rawOfLeaf 4) = true ∧
     rawGetLeaf (rawOfLeaf 4) = some 4 ∧
     rawIsLeaf rawEmpty = true ∧
     rawGetLeaf rawEmpty = some 0 ∧
     rawGetNode (rawOfLeaf 4) = none ∧
     rawGetLeaf (rawOfNode 4) = none ∧
     ((5 : Nat) % 2 = 1 → (5 : Nat) / 2 = 0 → (5 : Nat) = rawEmpty) ∧
     ((5 : Nat) % 2 = 1 → (5 : Nat) / 2 ≠ 0 →
        rawIsLeaf 5 = true ∧ rawGetLeaf 5 = some (5 - 1) ∧
        (5 : Nat) - 1 = 2 * (5 / 2) ∧ (5 : Nat) - 1 ≠ 0) ∧
     ((5 : Nat) % 2 = 0 → rawIsNode 5 = true ∧ rawGetNode 5 = some 5)) :=
  ⟨by decide, claim_C5 4 5 (by decide)⟩

/-- Claim C6: indexing an internal node at level L uses the array index
`(key >>> (L * B)) &&& ((1 <<< B) - 1)` with chunk width B = 4, which equals
digit L of the key in base 16; the fan-out is `2 ^ B = 16` slots per node;
the top level is `(W - 1) / B` for key width W; and both `get` and `insert`
descend by exactly this index. -/
theorem claim_C6 {V : Type} (getId : V → Nat) (key level keyBits : Nat)
    (ch : Fin CHILD_PER_LEVEL → Element V) (v : V) (fuel : Nat) :
    ((chunkIdx key level).val = (key >>> (level * 4)) &&& ((1 <<< 4) - 1)) ∧
    ((chunkIdx key level).val = key / 16 ^ level % 16) ∧
    (CHILD_PER_LEVEL = 2 ^ 4 ∧ BITS = 4) ∧
    (TOP_LEVEL keyBits = (keyBits - 1) / 4) ∧
    (getEl getId key (Element.node ch) level =
       getEl getId key (ch (chunkIdx key level)) (level - 1)) ∧
    (insertEl getId key v (fuel + 1) level (Element.node ch) =
       ((insertEl getId key v fuel (level - 1) (ch (chunkIdx key level))).1,
         Element.node (Function.update ch (chunkIdx key level)
           (insertEl getId key v fuel (level - 1)
             (ch (chunkIdx key level))).2))) := by
  refine ⟨rfl, ?_, ⟨by decide, by decide⟩, rfl, ?_, ?_⟩
  · have h1 : (chunkIdx key level).val =
        (key >>> (level * BITS)) % CHILD_PER_LEVEL := chunk_val_eq_mod key level
    have h2 : key >>> (level * BITS) = key / 2 ^ (level * BITS) :=
      Nat.shiftRight_eq_div_pow key (level * BITS)
    have h3 : (2 : Nat) ^ (level * BITS) = 16 ^ level := by
      have hb : BITS = 4 := by decide
      rw [hb, Nat.mul_comm, Nat.pow_mul]
    rw [h1, h2, h3]
    rfl
  · simp only [getEl]
  · simp only [insertEl]

/-- A sequential insertion makes at most one CAS attempt per unit of fuel. -/
theorem insertCasCount_le_fuel {V : Type} (getId : V → Nat) (key : Nat) :
    ∀ (fuel level : Nat) (e : Element V),
      insertCasCount getId key fuel level e ≤ fuel := by
  intro fuel
  induction fuel with
  | zero =>
    intro level e
    simp [insertCasCount]
  | succ f ih =>
    intro level e
    cases e with
    | empty =>
      simp only [insertCasCount]
      omega
    | leaf w =>
      by_cases hw : getId w = key
      · simp only [insertCasCount, if_pos hw]
        omega
      · simp only [insertCasCount, if_neg hw]
        have := ih (level - 1)
          (mkRadixNode level (getId w) (Element.leaf w) (chunkIdx key level))
        omega
    | node ch =>
      simp only [insertCasCount]
      exact Nat.le_succ_of_le (ih (level - 1) (ch (chunkIdx key level)))

/-- The descent of `get` is bounded by the well-formedness parameter of the
slot it starts from. -/
theorem descentDepth_le {V : Type} (getId : V → Nat) (keyBits : Nat)
    (key : Nat) :
    ∀ (e : Element V) (s hi : Nat), wfAt getId keyBits e s hi →
      descentDepth key e (s - 1) ≤ s := by
  intro e
  induction e with
  | empty =>
    intro s hi _
    simp [descentDepth]
  | leaf w =>
    intro s hi _
    simp [descentDepth]
  | node ch ih =>
    intro s hi hwf
    obtain ⟨hs, hch⟩ := hwf
    have hsub := ih (chunkIdx key (s - 1)) (s - 1)
      (hi * CHILD_PER_LEVEL + (chunkIdx key (s - 1)).val)
      (hch (chunkIdx key (s - 1)))
    simp only [descentDepth]
    omega

/-- Claim C8 counterexample: with key width W = 8 (so W/B = 2), the
sequential insertion of id 2 into the tree holding only id 1 performs 3
compare-exchange slot steps while suffering k = 0 CAS failures, exceeding
the claimed bound (W / B) + k = 2 (the root split, the level-0 split, and
the final empty-slot CAS each touch one slot). -/
theorem claim_C8_counterexample :
    RTree.insertCas TVal.getId 8
        (RTree.insert TVal.getId 8 (emptyTree TVal) ⟨1, 0⟩).2 ⟨2, 0⟩ = 3 ∧
    ¬(RTree.insertCas TVal.getId 8
        (RTree.insert TVal.getId 8 (emptyTree TVal) ⟨1, 0⟩).2 ⟨2, 0⟩ ≤
          8 / BITS + 0) := by
  constructor
  · decide
  · decide

/-- Claim C8 (amended): a sequential insertion (k = 0 CAS failures)
performs at most (W / B) + 1 compare-exchange slot steps; `get` descends
through at most (W - 1)/B + 1 node levels; and both terminate: the
fuel bound placed on the source loop is irrelevant from `TOP_LEVEL + 2`
upwards. -/
theorem claim_C8_amended {V : Type} (getId : V → Nat) (keyBits : Nat)
    (t : RTree V) (v : V) (key fuel : Nat) (ht : Reachable getId keyBits t)
    (hv : getId v < 2 ^ keyBits) (hdvd : 4 ∣ keyBits) (h0 : 0 < keyBits) :
    (RTree.insertCas getId keyBits t v ≤ keyBits / BITS + 1) ∧
    (descentDepth key t.root (TOP_LEVEL keyBits) ≤ (keyBits - 1) / BITS + 1) ∧
    (TOP_LEVEL keyBits + 2 ≤ fuel →
       insertEl getId (getId v) v fuel (TOP_LEVEL keyBits) t.root =
       insertEl getId (getId v) v (TOP_LEVEL keyBits + 2) (TOP_LEVEL keyBits)
         t.root) := by
  have hwf := wfT_of_reachable getId keyBits t ht
  have hb : BITS = 4 := by decide
  refine ⟨?_, ?_, ?_⟩
  · have hle := insertCasCount_le_fuel getId (getId v)
      (TOP_LEVEL keyBits + 2) (TOP_LEVEL keyBits) t.root
    have htop : TOP_LEVEL keyBits = (keyBits - 1) / 4 := rfl
    show insertCasCount getId (getId v) (TOP_LEVEL keyBits + 2)
      (TOP_LEVEL keyBits) t.root ≤ keyBits / BITS + 1
    rw [hb]
    omega
  · have hdd := descentDepth_le getId keyBits key t.root
      (TOP_LEVEL keyBits + 1) 0 hwf
    have htop : TOP_LEVEL keyBits = (keyBits - 1) / 4 := rfl
    rw [hb]
    simp only [Nat.add_sub_cancel] at hdd
    omega
  · intro hfuel
    exact (insertEl_spec getId keyBits (getId v) v hv rfl (TOP_LEVEL keyBits)
      t.root 0 fuel hwf (key_top_shift hv) hfuel).1

theorem claim_C8_amended_witness :
    Reachable TVal.getId 8 (emptyTree TVal) ∧
    TVal.getId ⟨1, 0⟩ < 2 ^ 8 ∧ (4 ∣ 8) ∧ 0 < 8 ∧
    ((RTree.insertCas TVal.getId 8 (emptyTree TVal) ⟨1, 0⟩ ≤ 8 / BITS + 1) ∧
     (descentDepth 2 (emptyTree TVal).root (TOP_LEVEL 8) ≤ (8 - 1) / BITS + 1) ∧
     (TOP_LEVEL 8 + 2 ≤ 9 →
        insertEl TVal.getId (TVal.getId ⟨1, 0⟩) ⟨1, 0⟩ 9 (TOP_LEVEL 8)
          (emptyTree TVal).root =
        insertEl TVal.getId (TVal.getId ⟨1, 0⟩) ⟨1, 0⟩ (TOP_LEVEL 8 + 2)
          (TOP_LEVEL 8) (emptyTree TVal).root)) :=
  ⟨Reachable.empty, by decide, by decide, by decide,
    claim_C8_amended TVal.getId 8 (emptyTree TVal) ⟨1, 0⟩ 2 9 Reachable.empty
      (by decide) (by decide) (by decide)⟩

/-- One CAS write changes one slot from empty to leaf or from leaf to node,
keeps every other slot intact, and never removes a slot. -/
theorem slotAt_step_mono {V : Type} (getId : V → Nat) :
    ∀ (e e' : Element V), Step getId e e' →
      ∀ (p : List (Fin CHILD_PER_LEVEL)) (s : Element V),
        slotAt e p = some s →
        ∃ s', slotAt e' p = some s' ∧
          (stateOf s' = stateOf s ∨
           (stateOf s = SState.E ∧ stateOf s' = SState.L) ∨
           (stateOf s = SState.L ∧ stateOf s' = SState.N)) := by
  intro e e' hstep
  induction hstep with
  | here hw =>
    intro p s hs
    cases hw with
    | cas_empty_leaf v =>
      cases p with
      | nil =>
        refine ⟨Element.leaf v, rfl, ?_⟩
        have hse : s = Element.empty := by
          simpa [slotAt] using hs.symm
        subst hse
        exact Or.inr (Or.inl ⟨rfl, rfl⟩)
      | cons i q => simp [slotAt] at hs
    | cas_leaf_node w level =>
      cases p with
      | nil =>
        refine ⟨_, rfl, ?_⟩
        have hse : s = Element.leaf w := by
          simpa [slotAt] using hs.symm
        subst hse
        exact Or.inr (Or.inr ⟨rfl, rfl⟩)
      | cons i q => simp [slotAt] at hs
  | deeper ch i e2 hsub ih =>
    intro p s hs
    cases p with
    | nil =>
      refine ⟨_, rfl, Or.inl ?_⟩
      have hse : s = Element.node ch := by
        simpa [slotAt] using hs.symm
      subst hse
      rfl
    | cons j q =>
      by_cases hji : j = i
      · subst hji
        simp only [slotAt] at hs ⊢
        rw [Function.update_same]
        exact ih q s hs
      · simp only [slotAt] at hs ⊢
        rw [Function.update_noteq hji]
        exact ⟨s, hs, Or.inl rfl⟩

/-- Across any number of steps, the state of a surviving slot only moves
forward in the order empty, leaf, node. -/
theorem slotAt_steps_rank {V : Type} (getId : V → Nat) (e e' : Element V)
    (h : Relation.ReflTransGen (Step getId) e e') :
    ∀ (p : List (Fin CHILD_PER_LEVEL)) (s : Element V), slotAt e p = some s →
      ∃ s', slotAt e' p = some s' ∧
        stateRank (stateOf s) ≤ stateRank (stateOf s') := by
  induction h with
  | refl => intro p s hs; exact ⟨s, hs, Nat.le_refl _⟩
  | tail hab hbc ih =>
    intro p s hs
    obtain ⟨s1, hs1, hr1⟩ := ih p s hs
    obtain ⟨s2, hs2, hcase⟩ := slotAt_step_mono getId _ _ hbc p s1 hs1
    refine ⟨s2, hs2, Nat.le_trans hr1 ?_⟩
    rcases hcase with h1 | ⟨h1, h2⟩ | ⟨h1, h2⟩
    · rw [h1]
    · rw [h1, h2]
      decide
    · rw [h1, h2]
      decide

/-- A sum of naturals over a finite index dominates a positive entry. -/
theorem one_le_sum_fin {n : Nat} (f : Fin n → Nat) (i : Fin n) (h : 1 ≤ f i) :
    1 ≤ ∑ j, f j :=
  Nat.le_trans h
    (Finset.single_le_sum (fun j _ => Nat.zero_le (f j)) (Finset.mem_univ i))

/-- Sums of naturals over a finite index are pointwise monotone. -/
theorem sum_le_sum_fin {n : Nat} (f g : Fin n → Nat) (h : ∀ i, f i ≤ g i) :
    ∑ j, f j ≤ ∑ j, g j :=
  Finset.sum_le_sum (fun j _ => h j)

/-- One CAS write never decreases the number of reachable leaves: the
empty-to-leaf write adds one, and the node published by the leaf-to-node
write carries the displaced leaf. -/
theorem leafCount_step {V : Type} (getId : V → Nat) :
    ∀ (e e' : Element V), Step getId e e' → leafCount e ≤ leafCount e' := by
  intro e e' h
  induction h with
  | here hw =>
    cases hw with
    | cas_empty_leaf v => simp [leafCount]
    | cas_leaf_node w level =>
      show (1 : Nat) ≤
        ∑ i, leafCount (mkRadixNode level (getId w) (Element.leaf w) i)
      apply one_le_sum_fin
        (fun i => leafCount (mkRadixNode level (getId w) (Element.leaf w) i))
        (chunkIdx (getId w) level)
      simp only [mkRadixNode]
      rw [Function.update_same]
      exact Nat.le_refl 1
  | deeper ch i e2 hsub ih =>
    show (∑ j, leafCount (ch j)) ≤ ∑ j, leafCount (Function.update ch i e2 j)
    apply sum_le_sum_fin
    intro j
    by_cases hji : j = i
    · subst hji
      rw [Function.update_same]
      exact ih
    · rw [Function.update_noteq hji]

/-- Claim C7: under the step relation generated by the writes of `insert`
(`get` performs none), a single step changes the state of any given slot
only from empty to leaf or from leaf to node; a slot holding a node still
holds a node after any number of steps (the node state is absorbing in this
revision); and the number of leaves reachable from the root never
decreases. -/
theorem claim_C7 {V : Type} (getId : V → Nat) :
    (∀ e e' : Element V, Step getId e e' →
       ∀ (p : List (Fin CHILD_PER_LEVEL)) (s s' : Element V),
         slotAt e p = some s → slotAt e' p = some s' →
         (stateOf s' = stateOf s ∨
          (stateOf s = SState.E ∧ stateOf s' = SState.L) ∨
          (stateOf s = SState.L ∧ stateOf s' = SState.N))) ∧
    (∀ e e' : Element V, Relation.ReflTransGen (Step getId) e e' →
       ∀ (p : List (Fin CHILD_PER_LEVEL)) (s : Element V),
         slotAt e p = some s → stateOf s = SState.N →
         ∃ s', slotAt e' p = some s' ∧ stateOf s' = SState.N) ∧
    (∀ e e' : Element V, Relation.ReflTransGen (Step getId) e e' →
       leafCount e ≤ leafCount e') := by
  refine ⟨?_, ?_, ?_⟩
  · intro e e' hstep p s s' hs hs'
    obtain ⟨s2, hs2, hcase⟩ := slotAt_step_mono getId e e' hstep p s hs
    rw [hs'] at hs2
    cases hs2
    exact hcase
  · intro e e' hsteps p s hs hN
    obtain ⟨s', hs', hrank⟩ := slotAt_steps_rank getId e e' hsteps p s hs
    refine ⟨s', hs', ?_⟩
    rw [hN] at hrank
    cases hstate : stateOf s' with
    | E => rw [hstate] at hrank; simp [stateRank] at hrank
    | L => rw [hstate] at hrank; simp [stateRank] at hrank
    | N => rfl
  · intro e e' hsteps
    induction hsteps with
    | refl => exact Nat.le_refl _
    | tail hab hbc ih => exact Nat.le_trans ih (leafCount_step getId _ _ hbc)

theorem claim_C7_witness :
    leafCount (Element.empty : Element TVal) ≤
      leafCount (Element.leaf (⟨1, 0⟩ : TVal)) :=
  (claim_C7 TVal.getId).2.2 Element.empty (Element.leaf ⟨1, 0⟩)
    (Relation.ReflTransGen.single (Step.here (SlotWrite.cas_empty_leaf ⟨1, 0⟩)))

/-- Claim C10: a slot that has left the empty state never returns to it
under the step relation, so when the empty-to-leaf CAS of `insert` fails
the observed word is not the empty sentinel: it is either a node word, or a
leaf word whose decoded pointer (the word with its low tag bit cleared) is
not null, making the `e.getLeaf()->getId()` dereference on that path
safe. -/
theorem claim_C10 {V : Type} (getId : V → Nat) :
    (∀ e e' : Element V, Relation.ReflTransGen (Step getId) e e' →
       ∀ (p : List (Fin CHILD_PER_LEVEL)) (s : Element V),
         slotAt e p = some s → stateOf s ≠ SState.E →
         ∃ s', slotAt e' p = some s' ∧ stateOf s' ≠ SState.E) ∧
    (∀ cur new_, (casRaw cur rawEmpty new_).1 = false →
       rawIsNode cur = true ∨
       ∃ a, rawGetLeaf cur = some a ∧ a ≠ 0 ∧ a = cur - 1) := by
  constructor
  · intro e e' hsteps p s hs hsE
    obtain ⟨s', hs', hrank⟩ := slotAt_steps_rank getId e e' hsteps p s hs
    refine ⟨s', hs', ?_⟩
    intro hE
    rw [hE] at hrank
    cases hstate : stateOf s with
    | E => exact hsE hstate
    | L =>
      rw [hstate] at hrank
      exact absurd hrank (by decide)
    | N =>
      rw [hstate] at hrank
      exact absurd hrank (by decide)
  · intro cur new_ hfail
    have hne : cur ≠ rawEmpty := by
      intro h
      rw [h] at hfail
      simp [casRaw] at hfail
    have hmod : cur &&& 1 = cur % 2 := Nat.and_one_is_mod cur
    by_cases hpar : cur % 2 = 0
    · left
      simp [rawIsNode, rawDiscriminent, DISCRIMINANT, hmod, hpar]
    · right
      have h1 : cur % 2 = 1 := by omega
      have hcur1 : cur ≠ 1 := by
        intro h
        exact hne (by rw [h]; rfl)
      refine ⟨cur - 1, ?_, by omega, rfl⟩
      simp [rawGetLeaf, rawIsLeaf, rawDiscriminent, DISCRIMINANT, hmod, h1]

theorem claim_C10_witness :
    ((casRaw 5 rawEmpty 8).1 = false) ∧
    (rawIsNode 5 = true ∨
     ∃ a, rawGetLeaf 5 = some a ∧ a ≠ 0 ∧ a = 5 - 1) :=
  ⟨by decide, (claim_C10 TVal.getId).2 5 8 (by decide)⟩

/-- Invariant of the same-key scenario: while the root slot is empty no
thread has returned; once it holds the leaf of the winning thread, that
thread has returned true and it is the only one that ever does. -/
theorem skInv {V : Type} {n : Nat} (getId : V → Nat) (k : Nat)
    (v : Fin n → V) (s' : SKState V n)
    (hrun : Relation.ReflTransGen (SKStep getId k v) (skInit V n) s') :
    (s'.root = Element.empty ∧
       ∀ i, s'.ts i = TState.start ∨ s'.ts i = TState.gotEmpty) ∨
    (∃ j, s'.root = Element.leaf (v j) ∧ s'.ts j = TState.done true ∧
       ∀ i, s'.ts i = TState.done true → i = j) := by
  induction hrun with
  | refl => exact Or.inl ⟨rfl, fun i => Or.inl rfl⟩
  | tail hab hbc ih =>
    rcases ih with ⟨hroot, hts⟩ | ⟨j, hroot, htsj, huniq⟩
    · cases hbc with
      | load_empty i hst hre =>
        left
        refine ⟨hre, ?_⟩
        intro m
        by_cases hmi : m = i
        · subst hmi
          right
          simp only [Function.update_same]
        · simp only [Function.update_noteq hmi]
          exact hts m
      | load_leaf i w hst hrw hid =>
        rw [hroot] at hrw
        cases hrw
      | cas_win i hge hre =>
        right
        refine ⟨i, rfl, ?_, ?_⟩
        · simp only [Function.update_same]
        · intro m hm
          by_cases hmi : m = i
          · exact hmi
          · simp only [Function.update_noteq hmi] at hm
            rcases hts m with h | h <;> rw [h] at hm <;> cases hm
      | cas_fail i w hge hrw hid =>
        rw [hroot] at hrw
        cases hrw
    · cases hbc with
      | load_empty i hst hre =>
        rw [hroot] at hre
        cases hre
      | load_leaf i w hst hrw hid =>
        right
        have hij : i ≠ j := by
          intro h
          rw [h, htsj] at hst
          cases hst
        refine ⟨j, hroot, ?_, ?_⟩
        · simp only [Function.update_noteq (fun h => hij h.symm)]
          exact htsj
        · intro m hm
          by_cases hmi : m = i
          · subst hmi
            simp only [Function.update_same] at hm
            cases hm
          · simp only [Function.update_noteq hmi] at hm
            exact huniq m hm
      | cas_win i hge hre =>
        rw [hroot] at hre
        cases hre
      | cas_fail i w hge hrw hid =>
        right
        have hij : i ≠ j := by
          intro h
          rw [h, htsj] at hge
          cases hge
        refine ⟨j, hroot, ?_, ?_⟩
        · simp only [Function.update_noteq (fun h => hij h.symm)]
          exact htsj
        · intro m hm
          by_cases hmi : m = i
          · subst hmi
            simp only [Function.update_same] at hm
            cases hm
          · simp only [Function.update_noteq hmi] at hm
            exact huniq m hm

/-- Claim C9: among any positive number of concurrent insertions of values
sharing one id, run from the fresh tree under an arbitrary interleaving of
their loads and compare-exchanges, once every thread has returned exactly
one of them has returned true (the one whose CAS saw the slot empty); all
the others returned false. -/
theorem claim_C9 {V : Type} {n : Nat} (getId : V → Nat) (k : Nat)
    (v : Fin n → V) (hn : 0 < n) (hk : ∀ i, getId (v i) = k)
    (s' : SKState V n)
    (hrun : Relation.ReflTransGen (SKStep getId k v) (skInit V n) s')
    (hdone : ∀ i, ∃ b, s'.ts i = TState.done b) :
    ∃! i, s'.ts i = TState.done true := by
  rcases skInv getId k v s' hrun with ⟨_, hts⟩ | ⟨j, _, htsj, huniq⟩
  · exfalso
    obtain ⟨b, hb⟩ := hdone ⟨0, hn⟩
    rcases hts ⟨0, hn⟩ with h | h <;> rw [h] at hb <;> cases hb
  · exact ⟨j, htsj, fun m hm => huniq m hm⟩

theorem claim_C9_witness :
    ∃! i : Fin 1,
      (⟨Element.leaf ((fun _ => (⟨7, 0⟩ : TVal)) (0 : Fin 1)),
        Function.update (Function.update (fun _ => TState.start) (0 : Fin 1)
          TState.gotEmpty) (0 : Fin 1) (TState.done true)⟩ :
          SKState TVal 1).ts i = TState.done true :=
  claim_C9 TVal.getId 7 (fun _ => ⟨7, 0⟩) (by decide) (fun _ => rfl) _
    (Relation.ReflTransGen.tail
      (Relation.ReflTransGen.single (SKStep.load_empty _ 0 rfl rfl))
      (SKStep.cas_win _ 0 rfl rfl))
    (fun i => ⟨true, by
      have h0 : i = 0 := by omega
      subst h0
      rfl⟩)


theorem claim_C2_witness :
    (∀ v ∈ [(⟨1, 10⟩ : TVal), ⟨2, 20⟩], TVal.getId v < 2 ^ 8) ∧
    (([(⟨1, 10⟩ : TVal), ⟨2, 20⟩].map TVal.getId).Nodup) ∧
    ((∀ v ∈ [(⟨1, 10⟩ : TVal), ⟨2, 20⟩],
        RTree.get TVal.getId 8 (insertAll TVal.getId 8 [⟨1, 10⟩, ⟨2, 20⟩]
          (emptyTree TVal)) (TVal.getId v) = some v) ∧
     (∀ k, k ∉ [(⟨1, 10⟩ : TVal), ⟨2, 20⟩].map TVal.getId →
        RTree.get TVal.getId 8 (insertAll TVal.getId 8 [⟨1, 10⟩, ⟨2, 20⟩]
          (emptyTree TVal)) k = none) ∧
     (∀ k, RTree.get TVal.getId 8 (emptyTree TVal) k = none)) :=
  ⟨by decide, by decide,
    claim_C2 TVal.getId 8 [⟨1, 10⟩, ⟨2, 20⟩] (by decide) (by decide)⟩

theorem claim_C3_witness :
    TVal.getId (⟨1, 99⟩ : TVal) < 2 ^ 8 ∧
    (((RTree.insert TVal.getId 8 (RTree.insert TVal.getId 8 (emptyTree TVal)
          ⟨1, 5⟩).2 ⟨1, 99⟩).1 = false ↔
        ∃ w, RTree.get TVal.getId 8 (RTree.insert TVal.getId 8
          (emptyTree TVal) ⟨1, 5⟩).2 (TVal.getId ⟨1, 99⟩) = some w ∧
          TVal.getId w = TVal.getId ⟨1, 99⟩) ∧
     ((RTree.insert TVal.getId 8 (RTree.insert TVal.getId 8 (emptyTree TVal)
          ⟨1, 5⟩).2 ⟨1, 99⟩).1 = false →
        (RTree.insert TVal.getId 8 (RTree.insert TVal.getId 8 (emptyTree TVal)
          ⟨1, 5⟩).2 ⟨1, 99⟩).2 =
          (RTree.insert TVal.getId 8 (emptyTree TVal) ⟨1, 5⟩).2)) :=
  ⟨by decide, claim_C3 TVal.getId 8 _ ⟨1, 99⟩
    (Reachable.insert (emptyTree TVal) ⟨1, 5⟩ Reachable.empty (by decide))
    (by decide)⟩

theorem claim_C4_witness :
    TVal.getId (⟨3, 1⟩ : TVal) < 2 ^ 8 ∧
    (RTree.insert TVal.getId 8 (emptyTree TVal) ⟨3, 1⟩).1 = true ∧
    RTree.get TVal.getId 8 (RTree.insert TVal.getId 8 (emptyTree TVal)
      ⟨3, 1⟩).2 (TVal.getId ⟨3, 1⟩) = some ⟨3, 1⟩ :=
  ⟨by decide, by decide, claim_C4 TVal.getId 8 (emptyTree TVal) ⟨3, 1⟩
    Reachable.empty (by decide) (by decide)⟩

end Radix
